import Mathlib

set_option linter.unusedSectionVars false

/-!
Verification development for the `memorija` TTL cache
(`Memorija.ts` and `MemorijaEntry.ts`).

The embedding is a shallow one over a single-threaded cooperative scheduling
model: the cache state carries the insertion-ordered backing `Map` (as an
association list), the set of live `setTimeout` handles, the current clock
(`Date.now()`), and a fresh-identity counter modelling JS object identity of
the raw `[expireAt, value]` tuples (the timers `WeakMap` is keyed by that
identity).  Clock advance and timer firing are explicit steps of a transition
relation; a cancelled (`clearTimeout`-ed) timer can never fire.
-/

/-- A JavaScript `number | null | undefined` value, as used for the `ttl` and
`expireAt` arguments and results of the cache. -/
inductive JsNum where
  | undef : JsNum
  | null : JsNum
  | num : Int → JsNum
  deriving DecidableEq, Repr

/-- JS `ToNumber` coercion as exercised by this code base: in
`Date.now() + ttl` and `setTimeout(fn, ttl)` a `null` coerces to `0`.
The `undef` branch is unreachable in this development (every use is guarded
by `ttl !== undefined`; JS would produce `NaN` there). -/
def jsToNumber : JsNum → Int
  | JsNum.undef => 0
  | JsNum.null => 0
  | JsNum.num n => n

/-- A raw stored deadline (`number | undefined`) read back as a JS value,
as in `return entry[0]`. -/
def rawToJs : Option Int → JsNum
  | none => JsNum.undef
  | some t => JsNum.num t

/-- `MemorijaEntry<T>`: an immutable (value, expireAt) pair.  The stored
`_expireAt` field is `number | null`; `none` represents `null`
("never expires") — the constructor never stores `undefined`. -/
structure MemorijaEntry (V : Type) where
  _value : V
  _expireAt : Option Int
  deriving DecidableEq, Repr

/-- The `MemorijaEntry` constructor:
`this._expireAt = expireAt === undefined ? null : expireAt`.
An omitted (`undefined`) deadline is normalised to `null`; an explicit `null`
stays `null`; a number is stored as given. -/
def MemorijaEntry.make {V : Type} (value : V) (expireAt : JsNum) : MemorijaEntry V :=
  { _value := value
    _expireAt :=
      match expireAt with
      | JsNum.undef => none
      | JsNum.null => none
      | JsNum.num t => some t }

/-- `get value()`. -/
def MemorijaEntry.value {V : Type} (e : MemorijaEntry V) : V := e._value

/-- `get expireAt()`: the deadline timestamp, or `null` if the entry never
expires. -/
def MemorijaEntry.expireAt {V : Type} (e : MemorijaEntry V) : JsNum :=
  match e._expireAt with
  | none => JsNum.null
  | some t => JsNum.num t

/-- `get ttl()`: `this.expireAt === null ? null : this.expireAt - Date.now()`. -/
def MemorijaEntry.ttl {V : Type} (e : MemorijaEntry V) (now : Int) : JsNum :=
  match e._expireAt with
  | none => JsNum.null
  | some t => JsNum.num (t - now)

/-- `get isExpired()`: `this.expireAt === null ? false : this.expireAt < Date.now()`. -/
def MemorijaEntry.isExpired {V : Type} (e : MemorijaEntry V) (now : Int) : Bool :=
  match e._expireAt with
  | none => false
  | some t => decide (t < now)

/-- `RawEntry<V> = [number, V]`, i.e. the `[expireAt, value]` tuple stored in
the backing map, with `expireAt` possibly `undefined` (`none`).  The `id`
field models JS object identity: each `set` allocates a fresh tuple, and the
timers `WeakMap` is keyed by that identity. -/
structure RawEntry (V : Type) where
  id : Nat
  expireAt : Option Int
  value : V
  deriving DecidableEq, Repr

/-- A live `setTimeout` handle: registered in the timers `WeakMap` under the
raw entry with identity `entryId`, installed for key `key`, becoming due once
the clock reaches `fireAt` (schedule-time `now` plus the timeout). -/
structure Timer (K : Type) where
  entryId : Nat
  key : K
  fireAt : Int
  deriving DecidableEq, Repr

/-- The `Memorija<K, V>` cache state: the insertion-ordered backing `Map`,
the live (uncancelled, unfired) timers, the current clock (`Date.now()`), and
the next fresh raw-entry identity. -/
structure Memorija (K V : Type) where
  map : List (K × RawEntry V)
  timers : List (Timer K)
  now : Int
  nextId : Nat
  deriving DecidableEq, Repr

/-- JS `Map.get` on the backing association list. -/
def mapGet {K V : Type} [DecidableEq K] : List (K × RawEntry V) → K → Option (RawEntry V)
  | [], _ => none
  | p :: rest, k => if p.1 = k then some p.2 else mapGet rest k

/-- JS `Map.has` on the backing association list. -/
def mapHas {K V : Type} [DecidableEq K] : List (K × RawEntry V) → K → Bool
  | [], _ => false
  | p :: rest, k => decide (p.1 = k) || mapHas rest k

/-- JS `Map.set` on the backing association list: overwrite in place
(insertion position preserved) when the key exists, else append. -/
def mapSet {K V : Type} [DecidableEq K] :
    List (K × RawEntry V) → K → RawEntry V → List (K × RawEntry V)
  | [], k, e => [(k, e)]
  | p :: rest, k, e => if p.1 = k then (k, e) :: rest else p :: mapSet rest k e

/-- JS `Map.delete` (the state part) on the backing association list. -/
def mapDelete {K V : Type} [DecidableEq K] :
    List (K × RawEntry V) → K → List (K × RawEntry V)
  | [], _ => []
  | p :: rest, k => if p.1 = k then mapDelete rest k else p :: mapDelete rest k

/-- `WeakMap.set` on the timers map (keyed by raw-entry identity): replace an
existing binding in place, else add one. -/
def timersSet {K : Type} : List (Timer K) → Timer K → List (Timer K)
  | [], t => [t]
  | t2 :: rest, t => if t2.entryId = t.entryId then t :: rest else t2 :: timersSet rest t

namespace Memorija

variable {K V : Type} [DecidableEq K]

/-- `new Memorija()`: empty map, no timers. -/
def empty : Memorija K V := { map := [], timers := [], now := 0, nextId := 0 }

/-- `get size()`. -/
def size (s : Memorija K V) : Nat := s.map.length

/-- `getRawEntry(key)`. -/
def getRawEntry (s : Memorija K V) (key : K) : Option (RawEntry V) :=
  mapGet s.map key

/-- `get(key)`: the associated value, or `undefined` (`none`) when absent. -/
def get (s : Memorija K V) (key : K) : Option V :=
  match s.getRawEntry key with
  | none => none
  | some e => some e.value

/-- `getEntry(key)`: `new MemorijaEntry(entry[1], entry[0])`, or `undefined`
(`none`) when absent. -/
def getEntry (s : Memorija K V) (key : K) : Option (MemorijaEntry V) :=
  match s.getRawEntry key with
  | none => none
  | some e => some (MemorijaEntry.make e.value (rawToJs e.expireAt))

/-- `cancelTimerForRawEntry(entry)`:
`clearTimeout(this.timers.get(entry)); this.timers.delete(entry)`.
A no-op when `entry` is `undefined` or carries no live timer. -/
def cancelTimerForRawEntry (s : Memorija K V) (entry : Option (RawEntry V)) :
    Memorija K V :=
  match entry with
  | none => s
  | some e => { s with timers := s.timers.filter fun t => decide (t.entryId ≠ e.id) }

/-- `cancelTimerForKey(key)`. -/
def cancelTimerForKey (s : Memorija K V) (key : K) : Memorija K V :=
  s.cancelTimerForRawEntry (s.getRawEntry key)

/-- `createTimer(key, entry, timeout)`: register
`setTimeout(() => { this.timers.delete(entry); this.map.delete(key); }, timeout)`
in the timers `WeakMap` under `entry`'s identity; the handle becomes due once
the clock reaches `now + timeout`. -/
def createTimer (s : Memorija K V) (key : K) (entry : RawEntry V) (timeout : Int) :
    Memorija K V :=
  { s with
    timers := timersSet s.timers { entryId := entry.id, key := key, fireAt := s.now + timeout } }

/-- The body of the `setTimeout` callback installed by `createTimer`:
`this.timers.delete(entry); this.map.delete(key)`.  In the scheduler model it
runs only for a live (uncancelled, unfired) timer; see `Step.fire`. -/
def fireTimer (s : Memorija K V) (t : Timer K) : Memorija K V :=
  { s with
    timers := s.timers.filter fun t2 => decide (t2.entryId ≠ t.entryId)
    map := mapDelete s.map t.key }

/-- `set(key, value, ttl?)`.  The `ttl` argument is `number | null | undefined`
(the `ttl` setter passes its argument straight through, including `null`).
Note that `ttl !== undefined` is `true` for `null`, and that
`Date.now() + ttl` and `setTimeout(fn, ttl)` coerce `null` to `0`. -/
def set (s : Memorija K V) (key : K) (value : V) (ttl : JsNum) : Memorija K V :=
  let s1 := s.cancelTimerForKey key
  let expireAt : Option Int :=
    if ttl ≠ JsNum.undef then some (s1.now + jsToNumber ttl) else none
  let entry : RawEntry V := { id := s1.nextId, expireAt := expireAt, value := value }
  let s2 := { s1 with map := mapSet s1.map key entry, nextId := s1.nextId + 1 }
  if ttl ≠ JsNum.undef then s2.createTimer key entry (jsToNumber ttl) else s2

/-- `has(key)`. -/
def has (s : Memorija K V) (key : K) : Bool := mapHas s.map key

/-- `delete(key)`: cancel the key's timer, then `this.map.delete(key)`;
returns whether a record existed, paired with the new state. -/
def delete (s : Memorija K V) (key : K) : Bool × Memorija K V :=
  let s1 := s.cancelTimerForKey key
  (mapHas s1.map key, { s1 with map := mapDelete s1.map key })

/-- `cancelTimers()`: cancel the timer of every record in the map. -/
def cancelTimers (s : Memorija K V) : Memorija K V :=
  s.map.foldl (fun acc p => acc.cancelTimerForRawEntry (some p.2)) s

/-- `clear()`: cancel all timers, then `this.map.clear()`. -/
def clear (s : Memorija K V) : Memorija K V :=
  { s.cancelTimers with map := [] }

/-- `ttl(key, ttl?)`: getter when the argument is `undefined`, otherwise
setter delegating to `set(key, entry.value, ttl)` and returning `ttl`.
Result value paired with the new state. -/
def ttl (s : Memorija K V) (key : K) (ttl : JsNum) : JsNum × Memorija K V :=
  match s.getEntry key with
  | none => (JsNum.undef, s)
  | some entry =>
    match ttl with
    | JsNum.undef => (entry.ttl s.now, s)
    | t => (t, s.set key entry.value t)

/-- `expireAt(key, expireAt?)`: getter when the argument is `undefined`
(returning the raw `entry[0]`, which is `undefined` when no deadline is
stored); `null` delegates to `set(key, entry[1])` with no ttl; a number
delegates to `set(key, entry[1], expireAt - Date.now())`.
Result value paired with the new state. -/
def expireAt (s : Memorija K V) (key : K) (expireAt : JsNum) : JsNum × Memorija K V :=
  match s.getRawEntry key with
  | none => (JsNum.undef, s)
  | some entry =>
    match expireAt with
    | JsNum.undef => (rawToJs entry.expireAt, s)
    | JsNum.null => (JsNum.null, s.set key entry.value JsNum.undef)
    | JsNum.num t => (JsNum.num t, s.set key entry.value (JsNum.num (t - s.now)))

/-- `keys()`: the keys in insertion order. -/
def keys (s : Memorija K V) : List K := s.map.map Prod.fst

/-- `values()`: the values in insertion order. -/
def values (s : Memorija K V) : List V := s.map.map fun p => p.2.value

/-- `entries()`: the `[key, value]` pairs in insertion order. -/
def entries (s : Memorija K V) : List (K × V) := s.map.map fun p => (p.1, p.2.value)

/-- `fullEntries()`: `[key, new MemorijaEntry(v[1], v[0])]` in insertion order. -/
def fullEntries (s : Memorija K V) : List (K × MemorijaEntry V) :=
  s.map.map fun p => (p.1, MemorijaEntry.make p.2.value (rawToJs p.2.expireAt))

/-- `fullValues()`: `new MemorijaEntry(v[1], v[0])` in insertion order. -/
def fullValues (s : Memorija K V) : List (MemorijaEntry V) :=
  s.map.map fun p => MemorijaEntry.make p.2.value (rawToJs p.2.expireAt)

/-- `forEach(callbackfn)`, modelled by its sequence of callback invocations
`(value, key)` in insertion order. -/
def forEach (s : Memorija K V) : List (V × K) :=
  s.map.map fun p => (p.2.value, p.1)

/-- `[Symbol.iterator]()`: returns `this.entries()`. -/
def iter (s : Memorija K V) : List (K × V) := s.entries

/-- The raw `[expireAt, value]` tuple allocated by `set s k v ttl`. -/
def setEntry (s : Memorija K V) (value : V) (ttl : JsNum) : RawEntry V :=
  { id := s.nextId
    expireAt := if ttl ≠ JsNum.undef then some (s.now + jsToNumber ttl) else none
    value := value }

/-- The timer/record invariant (spec §3): map keys and raw-entry identities
are duplicate-free, identities are below the freshness counter, every live
timer is registered under the identity of the record *currently* stored at
its key and is scheduled exactly for that record's deadline, and every record
with a deadline owns a live timer. -/
def Inv (s : Memorija K V) : Prop :=
  (s.map.map Prod.fst).Nodup ∧
  (s.map.map fun p => p.2.id).Nodup ∧
  (s.timers.map Timer.entryId).Nodup ∧
  (∀ p ∈ s.map, p.2.id < s.nextId) ∧
  (∀ t ∈ s.timers,
    (mapGet s.map t.key).map (fun e => (e.id, e.expireAt)) = some (t.entryId, some t.fireAt)) ∧
  (∀ p ∈ s.map, p.2.expireAt ≠ none → ∃ t ∈ s.timers, t.entryId = p.2.id)

instance (s : Memorija K V) : Decidable (Inv s) := by
  unfold Inv
  exact inferInstance

/-- One observable step of the system: a public mutation, a clock advance, or
the firing of a live, due timer (a cancelled timer can never fire). -/
inductive Step : Memorija K V → Memorija K V → Prop where
  | set (s : Memorija K V) (k : K) (v : V) (ttl : JsNum) : Step s (s.set k v ttl)
  | del (s : Memorija K V) (k : K) : Step s (s.delete k).2
  | clearStep (s : Memorija K V) : Step s s.clear
  | ttlOp (s : Memorija K V) (k : K) (a : JsNum) : Step s (s.ttl k a).2
  | expireAtOp (s : Memorija K V) (k : K) (a : JsNum) : Step s (s.expireAt k a).2
  | tick (s : Memorija K V) (d : Nat) : Step s { s with now := s.now + (d : Int) }
  | fire (s : Memorija K V) (t : Timer K) (ht : t ∈ s.timers) (hdue : t.fireAt ≤ s.now) :
      Step s (s.fireTimer t)

/-- Evolution by time passing and due timers firing only (no further API
calls): the closure of `tick` and `fire` steps. -/
inductive Evolves : Memorija K V → Memorija K V → Prop where
  | refl (s : Memorija K V) : Evolves s s
  | tick (s s' : Memorija K V) (d : Nat) (h : Evolves s s') :
      Evolves s { s' with now := s'.now + (d : Int) }
  | fire (s s' : Memorija K V) (t : Timer K) (h : Evolves s s')
      (ht : t ∈ s'.timers) (hdue : t.fireAt ≤ s'.now) :
      Evolves s (s'.fireTimer t)

end Memorija


/-- Example state: a fresh cache after `set(0, 7, 100)` — key 0 holds a
TTL-bearing entry with deadline 100 and a live timer. -/
def exTtl : Memorija Nat Nat := (Memorija.empty).set 0 7 (JsNum.num 100)

/-- Example state: `ttl(0, null)` applied to `exTtl`. -/
def exTtlNull : Memorija Nat Nat := (exTtl.ttl 0 JsNum.null).2

/-- Example state: a fresh cache after `set(0, 7)` with no TTL — key 0 never
expires. -/
def exNoTtl : Memorija Nat Nat := (Memorija.empty).set 0 7 JsNum.undef

/-- Example state: key 0 set with TTL 10, clock advanced to 50 with the
timer not yet fired — the deadline has passed but no eviction has run. -/
def exLate : Memorija Nat Nat :=
  { (Memorija.empty).set 0 5 (JsNum.num 10) with now := 50 }

section MapLemmas

variable {K V : Type} [DecidableEq K]

theorem mapGet_mapSet (m : List (K × RawEntry V)) (k k' : K) (e : RawEntry V) :
    mapGet (mapSet m k e) k' = if k = k' then some e else mapGet m k' := by
  induction m with
  | nil => simp only [mapSet, mapGet]
  | cons p rest ih =>
    by_cases hp : p.1 = k <;> by_cases h : k = k' <;> by_cases hpk : p.1 = k' <;>
      simp_all [mapSet, mapGet]

theorem mapHas_iff (m : List (K × RawEntry V)) (k : K) :
    mapHas m k = true ↔ k ∈ m.map Prod.fst := by
  induction m with
  | nil => simp [mapHas]
  | cons p rest ih =>
    simp only [mapHas, Bool.or_eq_true, decide_eq_true_eq, ih, List.map_cons,
      List.mem_cons]
    exact or_congr_left eq_comm

theorem mapGet_eq_none_iff (m : List (K × RawEntry V)) (k : K) :
    mapGet m k = none ↔ k ∉ m.map Prod.fst := by
  induction m with
  | nil => simp [mapGet]
  | cons p rest ih =>
    by_cases hp : p.1 = k <;> simp_all [mapGet, eq_comm]

theorem mapGet_mem (m : List (K × RawEntry V)) (k : K) (e : RawEntry V)
    (h : mapGet m k = some e) : (k, e) ∈ m := by
  induction m with
  | nil => simp [mapGet] at h
  | cons p rest ih =>
    by_cases hp : p.1 = k
    · simp only [mapGet, if_pos hp] at h
      cases h
      exact List.mem_cons.mpr (Or.inl (by rw [← hp]))
    · simp only [mapGet, if_neg hp] at h
      exact List.mem_cons_of_mem _ (ih h)

theorem mapGet_eq_some_of_mem (m : List (K × RawEntry V))
    (hnd : (m.map Prod.fst).Nodup) (p : K × RawEntry V) (hp : p ∈ m) :
    mapGet m p.1 = some p.2 := by
  induction m with
  | nil => simp at hp
  | cons q rest ih =>
    simp only [List.map_cons, List.nodup_cons] at hnd
    rcases List.mem_cons.mp hp with h | h
    · subst h
      simp [mapGet]
    · have hq : q.1 ≠ p.1 := by
        intro hqp
        exact hnd.1 (hqp ▸ List.mem_map_of_mem Prod.fst h)
      simp only [mapGet, if_neg hq]
      exact ih hnd.2 h

theorem keys_mapSet (m : List (K × RawEntry V)) (k : K) (e : RawEntry V) :
    (mapSet m k e).map Prod.fst =
      if mapHas m k then m.map Prod.fst else m.map Prod.fst ++ [k] := by
  induction m with
  | nil => simp [mapSet, mapHas]
  | cons p rest ih =>
    by_cases hp : p.1 = k <;> by_cases h : mapHas rest k = true <;>
      simp_all [mapSet, mapHas]

theorem mem_mapSet_weak (m : List (K × RawEntry V)) (k : K) (e : RawEntry V)
    (p : K × RawEntry V) (h : p ∈ mapSet m k e) : p = (k, e) ∨ p ∈ m := by
  induction m with
  | nil =>
    simp only [mapSet, List.mem_singleton] at h
    exact Or.inl h
  | cons q rest ih =>
    by_cases hq : q.1 = k
    · simp only [mapSet, if_pos hq] at h
      rcases List.mem_cons.mp h with h | h
      · exact Or.inl h
      · exact Or.inr (List.mem_cons_of_mem _ h)
    · simp only [mapSet, if_neg hq] at h
      rcases List.mem_cons.mp h with h | h
      · exact Or.inr (h ▸ List.mem_cons_self _ _)
      · rcases ih h with h | h
        · exact Or.inl h
        · exact Or.inr (List.mem_cons_of_mem _ h)

theorem mem_mapSet_strong (m : List (K × RawEntry V)) (k : K) (e : RawEntry V)
    (hnd : (m.map Prod.fst).Nodup) (p : K × RawEntry V) (h : p ∈ mapSet m k e) :
    p = (k, e) ∨ (p ∈ m ∧ p.1 ≠ k) := by
  induction m with
  | nil =>
    simp only [mapSet, List.mem_singleton] at h
    exact Or.inl h
  | cons q rest ih =>
    simp only [List.map_cons, List.nodup_cons] at hnd
    by_cases hq : q.1 = k
    · simp only [mapSet, if_pos hq] at h
      rcases List.mem_cons.mp h with h | h
      · exact Or.inl h
      · refine Or.inr ⟨List.mem_cons_of_mem _ h, ?_⟩
        intro hpk
        exact hnd.1 (hq ▸ hpk ▸ List.mem_map_of_mem Prod.fst h)
    · simp only [mapSet, if_neg hq] at h
      rcases List.mem_cons.mp h with h | h
      · subst h
        exact Or.inr ⟨List.mem_cons_self _ _, hq⟩
      · rcases ih hnd.2 h with h | h
        · exact Or.inl h
        · exact Or.inr ⟨List.mem_cons_of_mem _ h.1, h.2⟩

theorem nodup_ids_mapSet (m : List (K × RawEntry V)) (k : K) (e : RawEntry V)
    (hfresh : ∀ p ∈ m, p.2.id ≠ e.id)
    (hnd : (m.map fun p => p.2.id).Nodup) :
    ((mapSet m k e).map fun p => p.2.id).Nodup := by
  induction m with
  | nil => simp [mapSet]
  | cons q rest ih =>
    simp only [List.map_cons, List.nodup_cons] at hnd
    by_cases hq : q.1 = k
    · simp only [mapSet, if_pos hq, List.map_cons, List.nodup_cons]
      refine ⟨?_, hnd.2⟩
      intro hmem
      rcases List.mem_map.mp hmem with ⟨p, hpmem, hpid⟩
      exact hfresh p (List.mem_cons_of_mem _ hpmem) hpid
    · simp only [mapSet, if_neg hq, List.map_cons, List.nodup_cons]
      refine ⟨?_, ih (fun p hp => hfresh p (List.mem_cons_of_mem _ hp)) hnd.2⟩
      intro hmem
      rcases List.mem_map.mp hmem with ⟨p, hpmem, hpid⟩
      rcases mem_mapSet_weak rest k e p hpmem with h | h
      · exact hfresh q (List.mem_cons_self _ _) (by rw [← hpid, h])
      · exact hnd.1 (hpid ▸ List.mem_map_of_mem _ h)

theorem length_mapSet (m : List (K × RawEntry V)) (k : K) (e : RawEntry V) :
    (mapSet m k e).length = if mapHas m k then m.length else m.length + 1 := by
  induction m with
  | nil => simp [mapSet, mapHas]
  | cons p rest ih =>
    by_cases hp : p.1 = k <;> by_cases h : mapHas rest k = true <;>
      simp_all [mapSet, mapHas]

theorem mem_mapDelete (m : List (K × RawEntry V)) (k : K) (p : K × RawEntry V) :
    p ∈ mapDelete m k ↔ p ∈ m ∧ p.1 ≠ k := by
  induction m with
  | nil => simp [mapDelete]
  | cons q rest ih =>
    by_cases hq : q.1 = k
    · simp only [mapDelete, if_pos hq, ih, List.mem_cons]
      constructor
      · rintro ⟨h1, h2⟩
        exact ⟨Or.inr h1, h2⟩
      · rintro ⟨h1 | h1, h2⟩
        · exact absurd (h1 ▸ hq) h2
        · exact ⟨h1, h2⟩
    · simp only [mapDelete, if_neg hq, List.mem_cons, ih]
      constructor
      · rintro (h | ⟨h1, h2⟩)
        · exact ⟨Or.inl h, h ▸ hq⟩
        · exact ⟨Or.inr h1, h2⟩
      · rintro ⟨h1 | h1, h2⟩
        · exact Or.inl h1
        · exact Or.inr ⟨h1, h2⟩

theorem mapDelete_sublist (m : List (K × RawEntry V)) (k : K) :
    List.Sublist (mapDelete m k) m := by
  induction m with
  | nil => simp [mapDelete]
  | cons q rest ih =>
    by_cases hq : q.1 = k
    · simpa only [mapDelete, if_pos hq] using ih.cons _
    · simpa only [mapDelete, if_neg hq] using ih.cons₂ _

theorem mapGet_mapDelete (m : List (K × RawEntry V)) (k k' : K) :
    mapGet (mapDelete m k) k' = if k = k' then none else mapGet m k' := by
  induction m with
  | nil => simp [mapDelete, mapGet]
  | cons q rest ih =>
    by_cases hq : q.1 = k <;> by_cases h : k = k' <;> by_cases hqk : q.1 = k' <;>
      simp_all [mapDelete, mapGet]

theorem mem_timersSet_self {ts : List (Timer K)} (t : Timer K) :
    t ∈ timersSet ts t := by
  induction ts with
  | nil => simp [timersSet]
  | cons t2 rest ih =>
    by_cases h : t2.entryId = t.entryId
    · simp [timersSet, h]
    · simp only [timersSet, if_neg h, List.mem_cons]
      exact Or.inr ih

theorem mem_timersSet_weak {ts : List (Timer K)} (t t2 : Timer K)
    (h : t2 ∈ timersSet ts t) : t2 = t ∨ t2 ∈ ts := by
  induction ts with
  | nil =>
    simp only [timersSet, List.mem_singleton] at h
    exact Or.inl h
  | cons t3 rest ih =>
    by_cases h3 : t3.entryId = t.entryId
    · simp only [timersSet, if_pos h3] at h
      rcases List.mem_cons.mp h with h | h
      · exact Or.inl h
      · exact Or.inr (List.mem_cons_of_mem _ h)
    · simp only [timersSet, if_neg h3] at h
      rcases List.mem_cons.mp h with h | h
      · exact Or.inr (h ▸ List.mem_cons_self _ _)
      · rcases ih h with h | h
        · exact Or.inl h
        · exact Or.inr (List.mem_cons_of_mem _ h)

theorem timersSet_of_fresh {ts : List (Timer K)} (t : Timer K)
    (hfresh : ∀ t2 ∈ ts, t2.entryId ≠ t.entryId) :
    timersSet ts t = ts ++ [t] := by
  induction ts with
  | nil => simp [timersSet]
  | cons t2 rest ih =>
    have h2 : t2.entryId ≠ t.entryId := hfresh t2 (List.mem_cons_self _ _)
    simp only [timersSet, if_neg h2, List.cons_append]
    rw [ih (fun t3 h3 => hfresh t3 (List.mem_cons_of_mem _ h3))]

theorem mapHas_eq_isSome (m : List (K × RawEntry V)) (k : K) :
    mapHas m k = (mapGet m k).isSome := by
  induction m with
  | nil => simp [mapHas, mapGet]
  | cons p rest ih =>
    by_cases hp : p.1 = k <;> simp_all [mapHas, mapGet]

theorem keys_mapDelete (m : List (K × RawEntry V)) (k : K) :
    (mapDelete m k).map Prod.fst =
      (m.map Prod.fst).filter fun k2 => decide (k2 ≠ k) := by
  induction m with
  | nil => simp [mapDelete]
  | cons p rest ih =>
    by_cases hp : p.1 = k <;> simp_all [mapDelete]

end MapLemmas

namespace Memorija

section OpLemmas

variable {K V : Type} [DecidableEq K]

theorem mem_filter_entryId {ts : List (Timer K)} {t : Timer K} {i : Nat} :
    t ∈ ts.filter (fun t2 => decide (t2.entryId ≠ i)) ↔ t ∈ ts ∧ t.entryId ≠ i := by
  simp [List.mem_filter]

theorem cancelTimerForKey_map (s : Memorija K V) (k : K) :
    (s.cancelTimerForKey k).map = s.map := by
  cases hg : s.getRawEntry k <;>
    simp [cancelTimerForKey, cancelTimerForRawEntry, hg]

theorem cancelTimerForKey_now (s : Memorija K V) (k : K) :
    (s.cancelTimerForKey k).now = s.now := by
  cases hg : s.getRawEntry k <;>
    simp [cancelTimerForKey, cancelTimerForRawEntry, hg]

theorem cancelTimerForKey_nextId (s : Memorija K V) (k : K) :
    (s.cancelTimerForKey k).nextId = s.nextId := by
  cases hg : s.getRawEntry k <;>
    simp [cancelTimerForKey, cancelTimerForRawEntry, hg]

theorem cancelTimerForKey_timers_some (s : Memorija K V) (k : K) (e0 : RawEntry V)
    (hg : s.getRawEntry k = some e0) :
    (s.cancelTimerForKey k).timers =
      s.timers.filter fun t => decide (t.entryId ≠ e0.id) := by
  simp [cancelTimerForKey, cancelTimerForRawEntry, hg]

theorem cancelTimerForKey_none (s : Memorija K V) (k : K)
    (hg : s.getRawEntry k = none) : s.cancelTimerForKey k = s := by
  simp [cancelTimerForKey, cancelTimerForRawEntry, hg]

theorem mem_timers_cancelTimerForKey (s : Memorija K V) (k : K) (t : Timer K)
    (h : t ∈ (s.cancelTimerForKey k).timers) : t ∈ s.timers := by
  cases hg : s.getRawEntry k with
  | none => rw [cancelTimerForKey_none s k hg] at h; exact h
  | some e0 =>
    rw [cancelTimerForKey_timers_some s k e0 hg] at h
    exact (mem_filter_entryId.mp h).1

theorem set_unfold (s : Memorija K V) (k : K) (v : V) (ttl : JsNum) :
    s.set k v ttl =
      { map := mapSet s.map k (setEntry s v ttl)
        timers :=
          if ttl ≠ JsNum.undef then
            timersSet (s.cancelTimerForKey k).timers
              { entryId := s.nextId, key := k, fireAt := s.now + jsToNumber ttl }
          else (s.cancelTimerForKey k).timers
        now := s.now
        nextId := s.nextId + 1 } := by
  by_cases ht : ttl = JsNum.undef <;>
    cases hg : s.getRawEntry k <;>
      simp [Memorija.set, cancelTimerForKey, cancelTimerForRawEntry, createTimer,
        setEntry, hg, ht]

theorem delete_unfold (s : Memorija K V) (k : K) :
    (s.delete k).2 =
      { map := mapDelete s.map k
        timers := (s.cancelTimerForKey k).timers
        now := s.now
        nextId := s.nextId } := by
  cases hg : s.getRawEntry k <;>
    simp [Memorija.delete, cancelTimerForKey, cancelTimerForRawEntry, hg]

theorem cancelTimers_foldl_map (l : List (K × RawEntry V)) (s : Memorija K V) :
    (l.foldl (fun acc p => acc.cancelTimerForRawEntry (some p.2)) s).map = s.map := by
  induction l generalizing s with
  | nil => rfl
  | cons p rest ih => rw [List.foldl_cons, ih]; rfl

theorem mem_timers_cancelTimers_foldl (l : List (K × RawEntry V)) (s : Memorija K V)
    (t : Timer K)
    (h : t ∈ (l.foldl (fun acc p => acc.cancelTimerForRawEntry (some p.2)) s).timers) :
    t ∈ s.timers ∧ ∀ p ∈ l, t.entryId ≠ p.2.id := by
  induction l generalizing s with
  | nil =>
    exact ⟨h, by simp⟩
  | cons p rest ih =>
    rw [List.foldl_cons] at h
    rcases ih _ h with ⟨h1, h2⟩
    have h3 : t ∈ s.timers ∧ t.entryId ≠ p.2.id := by
      simpa [cancelTimerForRawEntry, List.mem_filter] using h1
    refine ⟨h3.1, ?_⟩
    intro q hq
    rcases List.mem_cons.mp hq with hq | hq
    · rw [hq]; exact h3.2
    · exact h2 q hq

theorem cancelTimers_foldl_now (l : List (K × RawEntry V)) (s : Memorija K V) :
    (l.foldl (fun acc p => acc.cancelTimerForRawEntry (some p.2)) s).now = s.now := by
  induction l generalizing s with
  | nil => rfl
  | cons p rest ih => rw [List.foldl_cons, ih]; rfl

theorem cancelTimers_foldl_nextId (l : List (K × RawEntry V)) (s : Memorija K V) :
    (l.foldl (fun acc p => acc.cancelTimerForRawEntry (some p.2)) s).nextId = s.nextId := by
  induction l generalizing s with
  | nil => rfl
  | cons p rest ih => rw [List.foldl_cons, ih]; rfl

theorem clear_unfold (s : Memorija K V) :
    s.clear = { map := [], timers := s.cancelTimers.timers, now := s.now, nextId := s.nextId } := by
  have hnow : s.cancelTimers.now = s.now := cancelTimers_foldl_now s.map s
  have hnext : s.cancelTimers.nextId = s.nextId := cancelTimers_foldl_nextId s.map s
  simp [Memorija.clear, hnow, hnext]

end OpLemmas

section InvLemmas

variable {K V : Type} [DecidableEq K]

theorem mapGet_pair_eq {m : List (K × RawEntry V)} {k : K} {i : Nat} {d : Option Int}
    (h : (mapGet m k).map (fun e => (e.id, e.expireAt)) = some (i, d)) :
    ∃ e, mapGet m k = some e ∧ e.id = i ∧ e.expireAt = d := by
  cases hg : mapGet m k with
  | none => rw [hg] at h; simp at h
  | some e =>
    rw [hg] at h
    simp only [Option.map_some, Option.map_some', Option.some.injEq, Prod.mk.injEq] at h
    exact ⟨e, rfl, h.1, h.2⟩

theorem id_injective (m : List (K × RawEntry V))
    (hB : (m.map fun p => p.2.id).Nodup)
    (p q : K × RawEntry V) (hp : p ∈ m) (hq : q ∈ m) (h : p.2.id = q.2.id) :
    p = q :=
  List.inj_on_of_nodup_map hB hp hq h

/-- Every live timer's identity is that of some current record, hence below
the freshness counter. -/
theorem timer_id_lt (s : Memorija K V) (h : Inv s) (t : Timer K)
    (ht : t ∈ s.timers) : t.entryId < s.nextId := by
  obtain ⟨hA, hB, hC, hD, hE, hF⟩ := h
  obtain ⟨e, hge, hid, hexp⟩ := mapGet_pair_eq (hE t ht)
  have := hD (t.key, e) (mapGet_mem _ _ _ hge)
  rw [← hid]
  exact this

theorem inv_empty : Inv (Memorija.empty : Memorija K V) := by
  refine ⟨?_, ?_, ?_, ?_, ?_, ?_⟩ <;> simp [Memorija.empty]

theorem inv_now (s : Memorija K V) (n : Int) (h : Inv s) :
    Inv { s with now := n } := h

theorem inv_fire (s : Memorija K V) (t : Timer K) (h : Inv s) (ht : t ∈ s.timers) :
    Inv (s.fireTimer t) := by
  obtain ⟨hA, hB, hC, hD, hE, hF⟩ := h
  obtain ⟨e0, hge0, hid0, hexp0⟩ := mapGet_pair_eq (hE t ht)
  have hmem0 : (t.key, e0) ∈ s.map := mapGet_mem _ _ _ hge0
  refine ⟨?_, ?_, ?_, ?_, ?_, ?_⟩
  · exact List.Nodup.sublist ((mapDelete_sublist s.map t.key).map Prod.fst) hA
  · exact List.Nodup.sublist ((mapDelete_sublist s.map t.key).map _) hB
  · exact List.Nodup.sublist ((List.filter_sublist _).map _) hC
  · intro p hp
    exact hD p ((mem_mapDelete _ _ _).mp hp).1
  · intro t2 ht2
    have ht2f : t2 ∈ s.timers ∧ t2.entryId ≠ t.entryId := mem_filter_entryId.mp ht2
    have hkey : t2.key ≠ t.key := by
      intro hk
      obtain ⟨e2, hge2, hid2, hexp2⟩ := mapGet_pair_eq (hE t2 ht2f.1)
      rw [hk, hge0] at hge2
      cases hge2
      exact ht2f.2 (hid2 ▸ hid0)
    show (mapGet (mapDelete s.map t.key) t2.key).map _ = _
    rw [mapGet_mapDelete, if_neg (fun hk => hkey hk.symm)]
    exact hE t2 ht2f.1
  · intro p hp hexp
    have hpm := (mem_mapDelete _ _ _).mp hp
    obtain ⟨t3, ht3, hid3⟩ := hF p hpm.1 hexp
    refine ⟨t3, ?_, hid3⟩
    apply mem_filter_entryId.mpr
    refine ⟨ht3, ?_⟩
    intro hq
    have : p.2.id = e0.id := by rw [← hid3, hq, ← hid0]
    have := id_injective s.map hB p (t.key, e0) hpm.1 hmem0 this
    exact hpm.2 (by rw [this])

theorem inv_set (s : Memorija K V) (k : K) (v : V) (ttl : JsNum) (h : Inv s) :
    Inv (s.set k v ttl) := by
  obtain ⟨hA, hB, hC, hD, hE, hF⟩ := h
  have hInv : Inv s := ⟨hA, hB, hC, hD, hE, hF⟩
  have hfresh : ∀ p ∈ s.map, p.2.id ≠ s.nextId := fun p hp => Nat.ne_of_lt (hD p hp)
  have ht1sub := mem_timers_cancelTimerForKey s k
  have hT1fresh : ∀ t2 ∈ (s.cancelTimerForKey k).timers, t2.entryId ≠ s.nextId :=
    fun t2 ht2 => Nat.ne_of_lt (timer_id_lt s hInv t2 (ht1sub t2 ht2))
  have hT1nodup : ((s.cancelTimerForKey k).timers.map Timer.entryId).Nodup := by
    cases hg : s.getRawEntry k with
    | none => rw [cancelTimerForKey_none s k hg]; exact hC
    | some e0 =>
      rw [cancelTimerForKey_timers_some s k e0 hg]
      exact List.Nodup.sublist ((List.filter_sublist _).map _) hC
  have hkeyne : ∀ t2 ∈ (s.cancelTimerForKey k).timers, t2.key ≠ k := by
    intro t2 ht2 hk
    obtain ⟨e2, hge2, hid2, hexp2⟩ := mapGet_pair_eq (hE t2 (ht1sub t2 ht2))
    cases hg : s.getRawEntry k with
    | none =>
      rw [hk] at hge2
      rw [Memorija.getRawEntry] at hg
      rw [hg] at hge2
      cases hge2
    | some e0 =>
      rw [cancelTimerForKey_timers_some s k e0 hg] at ht2
      have hne := (mem_filter_entryId.mp ht2).2
      rw [Memorija.getRawEntry] at hg
      rw [hk, hg] at hge2
      cases hge2
      exact hne hid2.symm
  have hT1E : ∀ t2 ∈ (s.cancelTimerForKey k).timers,
      (mapGet (mapSet s.map k (setEntry s v ttl)) t2.key).map (fun e => (e.id, e.expireAt))
        = some (t2.entryId, some t2.fireAt) := by
    intro t2 ht2
    rw [mapGet_mapSet, if_neg (fun hk => hkeyne t2 ht2 hk.symm)]
    exact hE t2 (ht1sub t2 ht2)
  have hsurvive : ∀ p ∈ s.map, p.1 ≠ k → p.2.expireAt ≠ none →
      ∃ t3 ∈ (s.cancelTimerForKey k).timers, t3.entryId = p.2.id := by
    intro p hpm hpk hexp
    obtain ⟨t3, ht3, hid3⟩ := hF p hpm hexp
    refine ⟨t3, ?_, hid3⟩
    cases hg : s.getRawEntry k with
    | none => rw [cancelTimerForKey_none s k hg]; exact ht3
    | some e0 =>
      rw [cancelTimerForKey_timers_some s k e0 hg]
      apply mem_filter_entryId.mpr
      refine ⟨ht3, ?_⟩
      intro heq
      rw [hid3] at heq
      have hmem0 : (k, e0) ∈ s.map :=
        mapGet_mem _ _ _ (by rw [← Memorija.getRawEntry]; exact hg)
      have hpe : p = (k, e0) := id_injective s.map hB p (k, e0) hpm hmem0 heq
      exact hpk (by rw [hpe])
  have hA2 : ((mapSet s.map k (setEntry s v ttl)).map Prod.fst).Nodup := by
    rw [keys_mapSet]
    by_cases hhas : mapHas s.map k = true
    · rw [if_pos hhas]; exact hA
    · rw [if_neg hhas]
      have hnot : k ∉ s.map.map Prod.fst := fun hmem => hhas ((mapHas_iff _ _).mpr hmem)
      simp [List.nodup_append, hA, hnot]
  have hB2 : ((mapSet s.map k (setEntry s v ttl)).map fun p => p.2.id).Nodup :=
    nodup_ids_mapSet s.map k _ hfresh hB
  have hD2 : ∀ p ∈ mapSet s.map k (setEntry s v ttl), p.2.id < s.nextId + 1 := by
    intro p hp
    rcases mem_mapSet_weak s.map k _ p hp with hpe | hpm
    · rw [hpe]; exact Nat.lt_succ_self _
    · exact Nat.lt_succ_of_lt (hD p hpm)
  rw [set_unfold]
  by_cases htt : ttl = JsNum.undef
  · rw [if_neg (by simp [htt])]
    refine ⟨hA2, hB2, hT1nodup, hD2, ?_, ?_⟩
    · intro t2 ht2
      exact hT1E t2 ht2
    · intro p hp hexp
      rcases mem_mapSet_strong s.map k _ hA p hp with hpe | ⟨hpm, hpk⟩
      · exfalso
        apply hexp
        rw [hpe]
        simp [setEntry, htt]
      · exact hsurvive p hpm hpk hexp
  · rw [if_pos htt]
    have hT2eq : timersSet (s.cancelTimerForKey k).timers
        { entryId := s.nextId, key := k, fireAt := s.now + jsToNumber ttl } =
        (s.cancelTimerForKey k).timers ++
          [{ entryId := s.nextId, key := k, fireAt := s.now + jsToNumber ttl }] :=
      timersSet_of_fresh _ (fun t2 ht2 => hT1fresh t2 ht2)
    rw [hT2eq]
    refine ⟨hA2, hB2, ?_, hD2, ?_, ?_⟩
    · simp only [List.map_append, List.map_cons, List.map_nil, List.nodup_append,
        List.nodup_singleton]
      refine ⟨hT1nodup, by simp, ?_⟩
      intro i hi hi2
      simp only [List.mem_singleton] at hi2
      rcases List.mem_map.mp hi with ⟨t2, ht2, hid2⟩
      exact hT1fresh t2 ht2 (by rw [hid2, hi2])
    · intro t2 ht2
      rcases List.mem_append.mp ht2 with ht2 | ht2
      · exact hT1E t2 ht2
      · simp only [List.mem_singleton] at ht2
        subst ht2
        show (mapGet (mapSet s.map k (setEntry s v ttl)) k).map _ = _
        rw [mapGet_mapSet, if_pos rfl]
        simp [setEntry, htt]
    · intro p hp hexp
      rcases mem_mapSet_strong s.map k _ hA p hp with hpe | ⟨hpm, hpk⟩
      · refine ⟨{ entryId := s.nextId, key := k, fireAt := s.now + jsToNumber ttl },
          List.mem_append.mpr (Or.inr (List.mem_singleton.mpr rfl)), ?_⟩
        rw [hpe]
        rfl
      · obtain ⟨t3, ht3, hid3⟩ := hsurvive p hpm hpk hexp
        exact ⟨t3, List.mem_append.mpr (Or.inl ht3), hid3⟩

theorem inv_delete (s : Memorija K V) (k : K) (h : Inv s) :
    Inv (s.delete k).2 := by
  obtain ⟨hA, hB, hC, hD, hE, hF⟩ := h
  have hInv : Inv s := ⟨hA, hB, hC, hD, hE, hF⟩
  have ht1sub := mem_timers_cancelTimerForKey s k
  have hT1nodup : ((s.cancelTimerForKey k).timers.map Timer.entryId).Nodup := by
    cases hg : s.getRawEntry k with
    | none => rw [cancelTimerForKey_none s k hg]; exact hC
    | some e0 =>
      rw [cancelTimerForKey_timers_some s k e0 hg]
      exact List.Nodup.sublist ((List.filter_sublist _).map _) hC
  have hkeyne : ∀ t2 ∈ (s.cancelTimerForKey k).timers, t2.key ≠ k := by
    intro t2 ht2 hk
    obtain ⟨e2, hge2, hid2, hexp2⟩ := mapGet_pair_eq (hE t2 (ht1sub t2 ht2))
    cases hg : s.getRawEntry k with
    | none =>
      rw [hk] at hge2
      rw [Memorija.getRawEntry] at hg
      rw [hg] at hge2
      cases hge2
    | some e0 =>
      rw [cancelTimerForKey_timers_some s k e0 hg] at ht2
      have hne := (mem_filter_entryId.mp ht2).2
      rw [Memorija.getRawEntry] at hg
      rw [hk, hg] at hge2
      cases hge2
      exact hne hid2.symm
  have hsurvive : ∀ p ∈ s.map, p.1 ≠ k → p.2.expireAt ≠ none →
      ∃ t3 ∈ (s.cancelTimerForKey k).timers, t3.entryId = p.2.id := by
    intro p hpm hpk hexp
    obtain ⟨t3, ht3, hid3⟩ := hF p hpm hexp
    refine ⟨t3, ?_, hid3⟩
    cases hg : s.getRawEntry k with
    | none => rw [cancelTimerForKey_none s k hg]; exact ht3
    | some e0 =>
      rw [cancelTimerForKey_timers_some s k e0 hg]
      apply mem_filter_entryId.mpr
      refine ⟨ht3, ?_⟩
      intro heq
      rw [hid3] at heq
      have hmem0 : (k, e0) ∈ s.map :=
        mapGet_mem _ _ _ (by rw [← Memorija.getRawEntry]; exact hg)
      have hpe : p = (k, e0) := id_injective s.map hB p (k, e0) hpm hmem0 heq
      exact hpk (by rw [hpe])
  rw [delete_unfold]
  refine ⟨?_, ?_, hT1nodup, ?_, ?_, ?_⟩
  · exact List.Nodup.sublist ((mapDelete_sublist s.map k).map Prod.fst) hA
  · exact List.Nodup.sublist ((mapDelete_sublist s.map k).map _) hB
  · intro p hp
    exact hD p ((mem_mapDelete _ _ _).mp hp).1
  · intro t2 ht2
    show (mapGet (mapDelete s.map k) t2.key).map _ = _
    rw [mapGet_mapDelete, if_neg (fun hk => hkeyne t2 ht2 hk.symm)]
    exact hE t2 (ht1sub t2 ht2)
  · intro p hp hexp
    have hpm := (mem_mapDelete _ _ _).mp hp
    exact hsurvive p hpm.1 hpm.2 hexp

theorem inv_clear (s : Memorija K V) (h : Inv s) : Inv s.clear := by
  obtain ⟨hA, hB, hC, hD, hE, hF⟩ := h
  have htimers : s.cancelTimers.timers = [] := by
    rw [List.eq_nil_iff_forall_not_mem]
    intro t ht
    obtain ⟨hts, hall⟩ := mem_timers_cancelTimers_foldl s.map s t ht
    obtain ⟨e, hge, hid, hexp⟩ := mapGet_pair_eq (hE t hts)
    exact hall (t.key, e) (mapGet_mem _ _ _ hge) hid.symm
  rw [clear_unfold, htimers]
  refine ⟨?_, ?_, ?_, ?_, ?_, ?_⟩ <;> simp

theorem inv_ttlOp (s : Memorija K V) (k : K) (a : JsNum) (h : Inv s) :
    Inv (s.ttl k a).2 := by
  rw [Memorija.ttl]
  cases hg : s.getEntry k with
  | none => exact h
  | some entry =>
    cases a with
    | undef => exact h
    | null => exact inv_set s k entry.value JsNum.null h
    | num n => exact inv_set s k entry.value (JsNum.num n) h

theorem inv_expireAtOp (s : Memorija K V) (k : K) (a : JsNum) (h : Inv s) :
    Inv (s.expireAt k a).2 := by
  rw [Memorija.expireAt]
  cases hg : s.getRawEntry k with
  | none => exact h
  | some entry =>
    cases a with
    | undef => exact h
    | null => exact inv_set s k entry.value JsNum.undef h
    | num n => exact inv_set s k entry.value (JsNum.num (n - s.now)) h

theorem inv_step (s s2 : Memorija K V) (h : Inv s) (hstep : Step s s2) : Inv s2 := by
  cases hstep with
  | set k v ttl => exact inv_set s k v ttl h
  | del k => exact inv_delete s k h
  | clearStep => exact inv_clear s h
  | ttlOp k a => exact inv_ttlOp s k a h
  | expireAtOp k a => exact inv_expireAtOp s k a h
  | tick d => exact inv_now s _ h
  | fire t ht hdue => exact inv_fire s t h ht

theorem evolves_now_le (s s3 : Memorija K V) (hev : Evolves s s3) :
    s.now ≤ s3.now := by
  induction hev with
  | refl => exact le_refl _
  | tick s2 d h ih =>
    exact le_trans ih (le_add_of_nonneg_right (Int.natCast_nonneg d))
  | fire s2 t h ht hdue ih => exact ih

/-- Along an evolution that stays strictly before the deadline `T` of the
record stored at `k`, the invariant persists and the record survives
untouched: the key's timer cannot yet be due, and other keys' firings do not
affect it. -/
theorem evolves_record_until (s s3 : Memorija K V) (k : K) (T : Int)
    (hev : Evolves s s3) (h0 : Inv s) (e : RawEntry V)
    (hget : mapGet s.map k = some e) (hexp : e.expireAt = some T) :
    s3.now < T →
      Inv s3 ∧ ∃ e2, mapGet s3.map k = some e2 ∧ e2.expireAt = some T := by
  induction hev with
  | refl =>
    intro _
    exact ⟨h0, e, hget, hexp⟩
  | tick s2 d h ih =>
    intro hlt
    have hle : s2.now ≤ s2.now + (d : Int) := le_add_of_nonneg_right (Int.natCast_nonneg d)
    obtain ⟨hinv, hrec⟩ := ih (lt_of_le_of_lt hle hlt)
    exact ⟨inv_now s2 _ hinv, hrec⟩
  | fire s2 t h ht hdue ih =>
    intro hlt
    obtain ⟨hinv, e2, hge2, hexp2⟩ := ih hlt
    refine ⟨inv_fire s2 t hinv ht, ?_⟩
    have hkne : t.key ≠ k := by
      intro hk
      obtain ⟨hA, hB, hC, hD, hE, hF⟩ := hinv
      obtain ⟨e3, hge3, hid3, hexp3⟩ := mapGet_pair_eq (hE t ht)
      rw [hk, hge2] at hge3
      cases hge3
      rw [hexp2] at hexp3
      cases hexp3
      exact absurd hdue (not_le.mpr hlt)
    refine ⟨e2, ?_, hexp2⟩
    show mapGet (mapDelete s2.map t.key) k = some e2
    rw [mapGet_mapDelete, if_neg hkne]
    exact hge2

/-- Along any evolution, the invariant persists and a never-expiring record
survives forever: no live timer can be keyed at it. -/
theorem evolves_record_forever (s s3 : Memorija K V) (k : K)
    (hev : Evolves s s3) (h0 : Inv s) (e : RawEntry V)
    (hget : mapGet s.map k = some e) (hexp : e.expireAt = none) :
    Inv s3 ∧ ∃ e2, mapGet s3.map k = some e2 ∧ e2.expireAt = none := by
  induction hev with
  | refl => exact ⟨h0, e, hget, hexp⟩
  | tick s2 d h ih =>
    obtain ⟨hinv, hrec⟩ := ih
    exact ⟨inv_now s2 _ hinv, hrec⟩
  | fire s2 t h ht hdue ih =>
    obtain ⟨hinv, e2, hge2, hexp2⟩ := ih
    refine ⟨inv_fire s2 t hinv ht, ?_⟩
    have hkne : t.key ≠ k := by
      intro hk
      obtain ⟨hA, hB, hC, hD, hE, hF⟩ := hinv
      obtain ⟨e3, hge3, hid3, hexp3⟩ := mapGet_pair_eq (hE t ht)
      rw [hk, hge2] at hge3
      cases hge3
      rw [hexp2] at hexp3
      cases hexp3
    refine ⟨e2, ?_, hexp2⟩
    show mapGet (mapDelete s2.map t.key) k = some e2
    rw [mapGet_mapDelete, if_neg hkne]
    exact hge2

end InvLemmas

end Memorija

/-- Claim C10: a `MemorijaEntry` constructed with the deadline argument
omitted (`undefined`) stores `null` — the same never-expires sentinel as an
explicit `null`: its `expireAt` getter returns `null`, its `ttl` getter
returns `null`, and `isExpired` is `false`; moreover for every constructor
argument the `expireAt` and `ttl` getters never return the `undefined`
absent sentinel used by the map. -/
theorem claim_C10 {V : Type} (v : V) (now : Int) :
    (MemorijaEntry.make v JsNum.undef).expireAt = JsNum.null ∧
    (MemorijaEntry.make v JsNum.undef).ttl now = JsNum.null ∧
    (MemorijaEntry.make v JsNum.undef).isExpired now = false ∧
    MemorijaEntry.make v JsNum.undef = MemorijaEntry.make v JsNum.null ∧
    ∀ p : JsNum, (MemorijaEntry.make v p).expireAt ≠ JsNum.undef ∧
      (MemorijaEntry.make v p).ttl now ≠ JsNum.undef := by
  refine ⟨rfl, rfl, rfl, rfl, ?_⟩
  intro p
  cases p <;>
    simp [MemorijaEntry.make, MemorijaEntry.expireAt, MemorijaEntry.ttl]

/-- Claim C8: for any key and numeric instant `i`, the `expireAt` setter and
the `ttl` setter called with the relative `i - now` at the same clock time
leave the map in the identical state (same stored value, same absolute
deadline, same scheduled timer); on a missing key both short-circuit as
no-ops. -/
theorem claim_C8 {K V : Type} [DecidableEq K] (s : Memorija K V) (k : K) (i : Int) :
    (s.expireAt k (JsNum.num i)).2 = (s.ttl k (JsNum.num (i - s.now))).2 := by
  cases hg : s.getRawEntry k with
  | none =>
    simp [Memorija.expireAt, Memorija.ttl, Memorija.getEntry, hg]
  | some e =>
    simp [Memorija.expireAt, Memorija.ttl, Memorija.getEntry, hg,
      MemorijaEntry.make, MemorijaEntry.value]

/-- Claim C1 (code-bug exhibit): `ttl(k, null)` on a TTL-bearing key does
NOT convert it into a never-expiring key.  The setter delegates to
`set(key, value, null)`, where `null !== undefined` holds, so the deadline
becomes `Date.now() + null = now` and `setTimeout(fn, null)` installs an
immediately-due timer.  Afterwards the `ttl` getter returns `0`, not the
`null` "never" sentinel, an immediately-due live timer exists for the key,
and its firing removes the key. -/
theorem claim_C1_code_bug :
    (exTtlNull.ttl 0 JsNum.undef).1 = JsNum.num 0 ∧
    (exTtlNull.ttl 0 JsNum.undef).1 ≠ JsNum.null ∧
    mapGet exTtlNull.map 0 = some { id := 1, expireAt := some 0, value := 7 } ∧
    (∃ t ∈ exTtlNull.timers, t.key = 0 ∧ t.fireAt ≤ exTtlNull.now) ∧
    (exTtlNull.fireTimer { entryId := 1, key := 0, fireAt := 0 }).has 0 = false := by
  decide

/-- Claim C4 (code-bug exhibit): the `expireAt` getter of a present,
never-expiring key returns the raw stored `undefined` (`entry[0]`), which is
exactly the absent-key sentinel — its own doc comment promises `null` in
that case.  The `ttl` getter, which does normalise through the
`MemorijaEntry` constructor, returns `null` for the same key. -/
theorem claim_C4_code_bug :
    exNoTtl.has 0 = true ∧
    (exNoTtl.expireAt 0 JsNum.undef).1 = JsNum.undef ∧
    ((Memorija.empty : Memorija Nat Nat).expireAt 0 JsNum.undef).1 = JsNum.undef ∧
    (exNoTtl.ttl 0 JsNum.undef).1 = JsNum.null := by
  decide

/-- Claim C2: in every invariant state, whenever an expiration callback can
fire — i.e. for every live (uncancelled, unfired) timer — the record
currently stored for the timer's key is identical (same raw-tuple identity)
to the record the timer was installed for, and firing removes exactly that
key while leaving every other key untouched.  A timer whose record has since
been replaced or deleted was necessarily cancelled (`set`/`delete`/`clear`
all cancel first), so it is not live and can never fire. -/
theorem claim_C2 {K V : Type} [DecidableEq K] (s : Memorija K V) (t : Timer K)
    (h : Memorija.Inv s) (ht : t ∈ s.timers) :
    (∃ e, mapGet s.map t.key = some e ∧ e.id = t.entryId ∧
      e.expireAt = some t.fireAt) ∧
    (s.fireTimer t).has t.key = false ∧
    ∀ k2, k2 ≠ t.key → (s.fireTimer t).get k2 = s.get k2 := by
  obtain ⟨hA, hB, hC, hD, hE, hF⟩ := h
  refine ⟨Memorija.mapGet_pair_eq (hE t ht), ?_, ?_⟩
  · show mapHas (mapDelete s.map t.key) t.key = false
    rw [mapHas_eq_isSome, mapGet_mapDelete, if_pos rfl]
    rfl
  · intro k2 hk2
    have hraw : (s.fireTimer t).getRawEntry k2 = s.getRawEntry k2 := by
      show mapGet (mapDelete s.map t.key) k2 = mapGet s.map k2
      rw [mapGet_mapDelete, if_neg (fun hk => hk2 hk.symm)]
    simp [Memorija.get, hraw]

theorem claim_C2_witness :
    (∃ e, mapGet exTtl.map (0 : Nat) = some e ∧ e.id = 0 ∧
      e.expireAt = some 100) ∧
    (exTtl.fireTimer { entryId := 0, key := 0, fireAt := 100 }).has 0 = false := by
  have h := claim_C2 exTtl { entryId := 0, key := 0, fireAt := 100 }
    (by decide) (by decide)
  exact ⟨h.1, h.2.1⟩

/-- Claim C5: a key whose deadline has passed but whose timer has not yet
fired stays fully visible and counted: `has` is true, `get` returns the
stored value, the key appears in `keys()`, and it contributes to `size`;
and no read checks expiry — the results of `get`/`has`/`keys`/`size` are
unchanged under any clock value, reads being pure observations of the map. -/
theorem claim_C5 {K V : Type} [DecidableEq K] (s : Memorija K V) (k : K)
    (e : RawEntry V) (d : Int) (hget : mapGet s.map k = some e)
    (hexp : e.expireAt = some d) (hpast : d < s.now) :
    s.has k = true ∧ s.get k = some e.value ∧ k ∈ s.keys ∧ 1 ≤ s.size ∧
    ∀ n : Int,
      ({ s with now := n } : Memorija K V).get k = s.get k ∧
      ({ s with now := n } : Memorija K V).has k = s.has k ∧
      ({ s with now := n } : Memorija K V).keys = s.keys ∧
      ({ s with now := n } : Memorija K V).size = s.size := by
  refine ⟨?_, ?_, ?_, ?_, fun n => ⟨rfl, rfl, rfl, rfl⟩⟩
  · show mapHas s.map k = true
    rw [mapHas_eq_isSome, hget]
    rfl
  · simp [Memorija.get, Memorija.getRawEntry, hget]
  · exact List.mem_map.mpr ⟨(k, e), mapGet_mem _ _ _ hget, rfl⟩
  · exact List.length_pos_of_mem (mapGet_mem _ _ _ hget)

theorem claim_C5_witness :
    exLate.has 0 = true ∧ exLate.get 0 = some 5 ∧ (0 : Nat) ∈ exLate.keys ∧
    1 ≤ exLate.size := by
  have h := claim_C5 exLate 0 { id := 0, expireAt := some 10, value := 5 } 10
    (by decide) (by decide) (by decide)
  exact ⟨h.1, h.2.1, h.2.2.1, h.2.2.2.1⟩

/-- Claim C6: the timer/record invariant — a record carries a live timer
handle iff its deadline is set, and that handle's firing deadline equals
the record's deadline as of scheduling — holds in the initial state and is
preserved by every step: `set`, `delete`, `clear`, the `ttl` and `expireAt`
setters, clock advance, and timer firing. -/
theorem claim_C6 {K V : Type} [DecidableEq K] :
    Memorija.Inv (Memorija.empty : Memorija K V) ∧
    ∀ s s2 : Memorija K V, Memorija.Inv s → Memorija.Step s s2 →
      Memorija.Inv s2 :=
  ⟨Memorija.inv_empty, Memorija.inv_step⟩

theorem claim_C6_witness :
    Memorija.Inv ((Memorija.empty : Memorija Nat Nat).set 0 7 (JsNum.num 100)) :=
  (@claim_C6 Nat Nat _).2 Memorija.empty _ (by decide)
    (Memorija.Step.set Memorija.empty 0 7 (JsNum.num 100))

/-- Claim C9: `set(k, v, 0)` is accepted, not rejected: it stores the
record with deadline `now` and installs a timer that is due immediately
(`fireAt = now ≤ now`, firing on the next scheduler step), and the key is
present; and no `set` can fail for capacity reasons — for every prior
state the size after `set` is the old size (overwrite) or old size + 1
(fresh key). -/
theorem claim_C9 {K V : Type} [DecidableEq K] (s : Memorija K V) (k : K) (v : V) :
    mapGet (s.set k v (JsNum.num 0)).map k =
      some { id := s.nextId, expireAt := some s.now, value := v } ∧
    (∃ t ∈ (s.set k v (JsNum.num 0)).timers,
      t.key = k ∧ t.fireAt = s.now ∧ t.fireAt ≤ (s.set k v (JsNum.num 0)).now) ∧
    (s.set k v (JsNum.num 0)).has k = true ∧
    ∀ ttl : JsNum, (s.set k v ttl).size =
      if s.has k then s.size else s.size + 1 := by
  have hentry : Memorija.setEntry s v (JsNum.num 0) =
      { id := s.nextId, expireAt := some s.now, value := v } := by
    simp [Memorija.setEntry, jsToNumber]
  have hmap : (s.set k v (JsNum.num 0)).map =
      mapSet s.map k (Memorija.setEntry s v (JsNum.num 0)) := by
    rw [Memorija.set_unfold]
  have hrec : mapGet (s.set k v (JsNum.num 0)).map k =
      some (Memorija.setEntry s v (JsNum.num 0)) := by
    rw [hmap, mapGet_mapSet, if_pos rfl]
  have htimers : (s.set k v (JsNum.num 0)).timers =
      timersSet (s.cancelTimerForKey k).timers
        { entryId := s.nextId, key := k, fireAt := s.now + jsToNumber (JsNum.num 0) } := by
    simp [Memorija.set_unfold]
  have hnow : (s.set k v (JsNum.num 0)).now = s.now := by
    rw [Memorija.set_unfold]
  refine ⟨by rw [hrec, hentry], ?_, ?_, ?_⟩
  · refine ⟨{ entryId := s.nextId, key := k, fireAt := s.now + jsToNumber (JsNum.num 0) },
      ?_, rfl, ?_, ?_⟩
    · rw [htimers]
      exact mem_timersSet_self _
    · show s.now + jsToNumber (JsNum.num 0) = s.now
      simp [jsToNumber]
    · rw [hnow]
      show s.now + jsToNumber (JsNum.num 0) ≤ s.now
      simp [jsToNumber]
  · show mapHas (s.set k v (JsNum.num 0)).map k = true
    rw [mapHas_eq_isSome, hrec]
    rfl
  · intro ttl
    show (s.set k v ttl).map.length = _
    rw [Memorija.set_unfold]
    show (mapSet s.map k (Memorija.setEntry s v ttl)).length = _
    rw [length_mapSet]
    rfl

/-- Claim C3: re-setting a key cancels its prior schedule — starting from
any invariant state, after `set(k, v, 50); set(k, v2, 5000)` the key stays
present under every evolution (clock advance, due timers firing) whose
clock stays below the new 5000 ms deadline, in particular well past 50 ms;
and after `delete(k); set(k, w)` with no TTL the key stays present under
every evolution, indefinitely — no phantom eviction from the deleted key's
original timer. -/
theorem claim_C3 {K V : Type} [DecidableEq K] (s : Memorija K V) (k : K)
    (v v2 w : V) (h : Memorija.Inv s) :
    (∀ s3, Memorija.Evolves ((s.set k v (JsNum.num 50)).set k v2 (JsNum.num 5000)) s3 →
      s3.now < s.now + 5000 → s3.has k = true) ∧
    (∀ s3, Memorija.Evolves (((s.delete k).2).set k w JsNum.undef) s3 →
      s3.has k = true) := by
  constructor
  · intro s3 hev hlt
    have hinv2 : Memorija.Inv ((s.set k v (JsNum.num 50)).set k v2 (JsNum.num 5000)) :=
      Memorija.inv_set _ _ _ _ (Memorija.inv_set _ _ _ _ h)
    have hrec : mapGet ((s.set k v (JsNum.num 50)).set k v2 (JsNum.num 5000)).map k =
        some (Memorija.setEntry (s.set k v (JsNum.num 50)) v2 (JsNum.num 5000)) := by
      rw [Memorija.set_unfold (s.set k v (JsNum.num 50))]
      show mapGet (mapSet _ k _) k = _
      rw [mapGet_mapSet, if_pos rfl]
    have hexp : (Memorija.setEntry (s.set k v (JsNum.num 50)) v2 (JsNum.num 5000)).expireAt =
        some (s.now + 5000) := by
      have hnow1 : (s.set k v (JsNum.num 50)).now = s.now := by
        rw [Memorija.set_unfold]
      simp [Memorija.setEntry, jsToNumber, hnow1]
    obtain ⟨hinv3, e2, hge2, hexp2⟩ :=
      Memorija.evolves_record_until _ s3 k (s.now + 5000) hev hinv2 _ hrec hexp hlt
    show mapHas s3.map k = true
    rw [mapHas_eq_isSome, hge2]
    rfl
  · intro s3 hev
    have hinv1 : Memorija.Inv ((s.delete k).2) := Memorija.inv_delete _ _ h
    have hrec : mapGet (((s.delete k).2).set k w JsNum.undef).map k =
        some (Memorija.setEntry ((s.delete k).2) w JsNum.undef) := by
      rw [Memorija.set_unfold]
      show mapGet (mapSet _ k _) k = _
      rw [mapGet_mapSet, if_pos rfl]
    have hexp : (Memorija.setEntry ((s.delete k).2) w JsNum.undef).expireAt = none := by
      simp [Memorija.setEntry]
    obtain ⟨hinv3, e2, hge2, hexp2⟩ :=
      Memorija.evolves_record_forever _ s3 k hev (Memorija.inv_set _ _ _ _ hinv1) _ hrec hexp
    show mapHas s3.map k = true
    rw [mapHas_eq_isSome, hge2]
    rfl

theorem claim_C3_witness :
    ({ ((Memorija.empty : Memorija Nat Nat).set 0 1 (JsNum.num 50)).set 0 2 (JsNum.num 5000) with
        now := (((Memorija.empty : Memorija Nat Nat).set 0 1 (JsNum.num 50)).set 0 2
          (JsNum.num 5000)).now + ((100 : Nat) : Int) }).has 0 = true ∧
    ((((Memorija.empty : Memorija Nat Nat).delete 0).2).set 0 3 JsNum.undef).has 0 = true :=
  ⟨(claim_C3 Memorija.empty 0 1 2 3 (by decide)).1 _
      (Memorija.Evolves.tick _ _ 100 (Memorija.Evolves.refl _)) (by decide),
    (claim_C3 Memorija.empty 0 1 2 3 (by decide)).2 _ (Memorija.Evolves.refl _)⟩

/-- Claim C7: all iteration follows insertion order over the live keys:
`set` preserves an existing key's position and appends a fresh key,
`delete` removes the key preserving the order of the others,
`values`/`entries`/`fullEntries`/`forEach`/the iteration protocol traverse
in the same order as `keys`; and for distinct keys `a ≠ b`:
`set(a,v1); set(b,v2); set(a,v3)` yields keys `[a, b]`, and a subsequent
`delete(a); set(a,v4)` yields `[b, a]`. -/
theorem claim_C7 {K V : Type} [DecidableEq K] :
    (∀ (s : Memorija K V) (k : K) (v : V) (ttl : JsNum),
      (s.set k v ttl).keys = if s.has k then s.keys else s.keys ++ [k]) ∧
    (∀ (s : Memorija K V) (k : K),
      ((s.delete k).2).keys = s.keys.filter fun k2 => decide (k2 ≠ k)) ∧
    (∀ s : Memorija K V,
      s.keys = s.entries.map Prod.fst ∧
      s.values = s.entries.map Prod.snd ∧
      s.iter = s.entries ∧
      s.forEach = s.entries.map (fun p => (p.2, p.1)) ∧
      s.fullEntries.map Prod.fst = s.keys) ∧
    ∀ (a b : K) (v1 v2 v3 v4 : V), a ≠ b →
      ((((Memorija.empty).set a v1 JsNum.undef).set b v2 JsNum.undef).set a
          v3 JsNum.undef).keys = [a, b] ∧
      (((((((Memorija.empty).set a v1 JsNum.undef).set b v2 JsNum.undef).set a
          v3 JsNum.undef).delete a).2).set a v4 JsNum.undef).keys = [b, a] := by
  have hhas : ∀ (s : Memorija K V) (k : K), s.has k = true ↔ k ∈ s.keys :=
    fun s k => mapHas_iff s.map k
  have hset : ∀ (s : Memorija K V) (k : K) (v : V) (ttl : JsNum),
      (s.set k v ttl).keys = if s.has k then s.keys else s.keys ++ [k] := by
    intro s k v ttl
    show (s.set k v ttl).map.map Prod.fst = _
    rw [Memorija.set_unfold]
    show (mapSet s.map k (Memorija.setEntry s v ttl)).map Prod.fst = _
    rw [keys_mapSet]
    rfl
  have hdel : ∀ (s : Memorija K V) (k : K),
      ((s.delete k).2).keys = s.keys.filter fun k2 => decide (k2 ≠ k) := by
    intro s k
    show ((s.delete k).2).map.map Prod.fst = _
    rw [Memorija.delete_unfold]
    show (mapDelete s.map k).map Prod.fst = _
    rw [keys_mapDelete]
    rfl
  refine ⟨hset, hdel, ?_, ?_⟩
  · intro s
    refine ⟨?_, ?_, rfl, ?_, ?_⟩ <;>
      simp [Memorija.keys, Memorija.entries, Memorija.values, Memorija.forEach,
        Memorija.fullEntries, List.map_map, Function.comp]
  · intro a b v1 v2 v3 v4 hab
    have hba : b ≠ a := Ne.symm hab
    have e0 : (Memorija.empty : Memorija K V).keys = [] := rfl
    have hhas0 : (Memorija.empty : Memorija K V).has a = false := rfl
    have h1 : ((Memorija.empty : Memorija K V).set a v1 JsNum.undef).keys = [a] := by
      rw [hset, hhas0, e0]
      simp
    have hhas1 : ((Memorija.empty : Memorija K V).set a v1 JsNum.undef).has b = false := by
      rw [← Bool.not_eq_true]
      intro hb
      have := (hhas _ _).mp hb
      rw [h1] at this
      simp at this
      exact hba this
    have h2 : (((Memorija.empty : Memorija K V).set a v1 JsNum.undef).set b v2
        JsNum.undef).keys = [a, b] := by
      rw [hset, hhas1, h1]
      simp
    have hhas2 : (((Memorija.empty : Memorija K V).set a v1 JsNum.undef).set b v2
        JsNum.undef).has a = true := by
      rw [hhas, h2]
      simp
    have h3 : ((((Memorija.empty : Memorija K V).set a v1 JsNum.undef).set b v2
        JsNum.undef).set a v3 JsNum.undef).keys = [a, b] := by
      rw [hset, hhas2, h2]
      simp
    have h4 : (((((Memorija.empty : Memorija K V).set a v1 JsNum.undef).set b v2
        JsNum.undef).set a v3 JsNum.undef).delete a).2.keys = [b] := by
      rw [hdel, h3]
      simp [List.filter, hba]
    have hhas4 : (((((Memorija.empty : Memorija K V).set a v1 JsNum.undef).set b v2
        JsNum.undef).set a v3 JsNum.undef).delete a).2.has a = false := by
      rw [← Bool.not_eq_true]
      intro ha
      have := (hhas _ _).mp ha
      rw [h4] at this
      simp at this
      exact hab this
    have h5 : ((((((Memorija.empty : Memorija K V).set a v1 JsNum.undef).set b v2
        JsNum.undef).set a v3 JsNum.undef).delete a).2.set a v4 JsNum.undef).keys = [b, a] := by
      rw [hset, hhas4, h4]
      simp
    exact ⟨h3, h5⟩

theorem claim_C7_witness :
    ((((Memorija.empty : Memorija Nat Nat).set 0 1 JsNum.undef).set 1 2
        JsNum.undef).set 0 3 JsNum.undef).keys = [0, 1] ∧
    (((((((Memorija.empty : Memorija Nat Nat).set 0 1 JsNum.undef).set 1 2
        JsNum.undef).set 0 3 JsNum.undef).delete 0).2).set 0 4 JsNum.undef).keys = [1, 0] :=
  (@claim_C7 Nat Nat _).2.2.2 0 1 1 2 3 4 (by decide)
